import Mathlib

/-!
# Verification of `aiocoap/plumbingrequest.py`

A shallow embedding of the `PlumbingRequest` rendezvous point and the
`run_driving_plumbing_request` lifecycle binder, together with proofs
about the specified behaviour.

Modelling choices, mirroring the Python source:

* Response messages and exception values are modelled as natural numbers
  (`Msg`, `Exn`); the code never inspects them.
* `PlumbingRequest._event_callbacks` is a Python attribute holding either a
  list of `(callback, is_interest)` pairs, or `None` while an event is being
  dispatched, or `False` once the request has ended.  This is modelled by the
  three-constructor type `EventCallbacks`.
* A registered callback is identified by a numeric id (standing for Python
  object identity, which is what `_unregister_on_event` compares with `is`).
  Its behaviour on an event is a small program (`CbProg`) which can return a
  boolean, raise, or attempt the reentrant calls the claims talk about
  (pushing a new event or invoking an unregister handle from inside a
  dispatch pass).  While a dispatch pass runs, `_event_callbacks` is `None`
  (or already `False` inside `_end`), and in the Python code every reentrant
  mutation attempt on those sentinel values leaves the attribute unchanged,
  so reentrant calls are interpreted against the fixed mid-dispatch sentinel.
* Python exceptions that the claims distinguish (`TypeError` from iterating
  `None`, `AttributeError` from `.append` on a non-list) are the type `PyErr`;
  a user callback raising is `PyErr.cbError`.
* Observable behaviour is collected as a list of `Effect`s: a callback being
  invoked with an event, an `on_interest_end` user callback firing, and
  `log.warning` calls.
-/

abbrev Msg := Nat
abbrev Exn := Nat

/-- Model of `PlumbingRequest.Event`: `namedtuple("Event", ("message", "exception", "is_last"))`. -/
structure Event where
  message : Option Msg
  exception : Option Exn
  is_last : Bool
  deriving DecidableEq, Repr

/-- The synthetic tombstone `self.Event(None, None, True)` built in `_end`. -/
def tombstone : Event := ⟨none, none, true⟩

/-- Python exceptions that arise in the modelled code paths. -/
inductive PyErr where
  /-- Python `TypeError`: iterating over `None` (list comprehension over the
  `_event_callbacks = None` sentinel). -/
  | typeError
  /-- Python `AttributeError`: calling `.append` on `None` or `False`. -/
  | attributeError
  /-- An exception raised by a user-supplied callback; the payload tags which. -/
  | cbError (tag : Nat)
  deriving DecidableEq, Repr

/-- Which sentinel `_event_callbacks` holds while a dispatch pass is running:
`None` inside `_add_event`, already `False` inside `_end`. -/
inductive Mid where
  | dispatching
  | ended
  deriving DecidableEq, Repr

/-- The body of a user callback, as a small program: what it does when invoked
with an event.  `tryAddEvent`/`tryUnregister` model reentrant calls into the
plumbing request from inside the callback; each carries two continuations,
for the call returning normally and for it raising (a `try`/`except` in the
callback; a callback that does not catch uses `raiseErr` as the second
continuation). -/
inductive CbProg where
  | ret (b : Bool)
  | raiseErr (e : PyErr)
  | tryAddEvent (ev : Event) (onOk onErr : CbProg)
  | tryUnregister (cid : Nat) (onOk onErr : CbProg)
  deriving Repr

/-- A callback registered in `_event_callbacks`: either a plain callback
passed to `on_event` (identified by `id`, with behaviour `prog`), or the
anonymous wrapper lambda that `on_interest_end` appends:
`lambda e: ((callback(), False) if e.is_last else (None, True))[1]`. -/
inductive Cb where
  | plain (id : Nat) (prog : Event → CbProg)
  | interestEnd (id : Nat)

/-- One entry of the `_event_callbacks` list: `(callback, is_interest)`. -/
abbrev Entry := Cb × Bool

/-- The `_event_callbacks` attribute: a list, or `None` during event
processing, or `False` once the request has ended. -/
inductive EventCallbacks where
  | list (cbs : List Entry)
  | none_
  | false_

/-- Observable effects of running the code. -/
inductive Effect where
  /-- A plain observer callback `id` was invoked with event `e`. -/
  | delivered (id : Nat) (e : Event)
  /-- The user callback of `on_interest_end` registration `id` was invoked. -/
  | fired (id : Nat)
  /-- A `self.log.warning(...)` call was made. -/
  | warned
  deriving DecidableEq, Repr

/-- Model of `PlumbingRequest._any_interest`:
`any(is_interest for (cb, is_interest) in self._event_callbacks)`. -/
def any_interest (cbs : List Entry) : Bool :=
  cbs.any (fun e => e.2)

/-- Interpret a callback program while a dispatch pass is running.  The
sentinel `m` is what `_event_callbacks` holds at that moment.  Reentrant
`_add_event` on `None` raises `TypeError` (the list comprehension iterates
`None`) and on `False` logs a warning and returns; reentrant
`_unregister_on_event` on `None` raises `TypeError` and on `False` returns
immediately.  None of these reentrant attempts changes `_event_callbacks`
(assigning `None` over `None` is the only write reached), which is why the
interpreter needs no state; the agreement lemmas `add_event_on_dispatching`,
`add_event_on_ended`, `unregister_on_dispatching` and `unregister_on_ended`
below connect this interpretation to the top-level operations. -/
def runCb (m : Mid) : CbProg → List Effect × Except PyErr Bool
  | .ret b => ([], .ok b)
  | .raiseErr e => ([], .error e)
  | .tryAddEvent _ onOk onErr =>
      match m with
      | .dispatching => runCb m onErr
      | .ended =>
          let r := runCb m onOk
          (.warned :: r.1, r.2)
  | .tryUnregister _ onOk onErr =>
      match m with
      | .dispatching => runCb m onErr
      | .ended => runCb m onOk

/-- Invoke one registered callback with an event (`cb(event)` in the list
comprehensions of `_add_event` and `_end`).  For the `on_interest_end`
wrapper, `((callback(), False) if e.is_last else (None, True))[1]` fires the
user callback and returns `False` exactly when the event is final. -/
def callCb (m : Mid) : Cb → Event → List Effect × Except PyErr Bool
  | .plain id prog, ev =>
      let r := runCb m (prog ev)
      (.delivered id ev :: r.1, r.2)
  | .interestEnd id, ev =>
      if ev.is_last then ([.fired id], .ok false) else ([], .ok true)

/-- The list comprehension of `_add_event`, line 149:
`[(cb, is_interest) for (cb, is_interest) in cbs if cb(event)]`.
Runs each callback in registration order; keeps the entries whose callback
returned a truthy value; aborts (propagating the exception) if a callback
raises, after the effects of the callbacks already run. -/
def dispatchPass (ev : Event) : List Entry → List Effect × Except PyErr (List Entry)
  | [] => ([], .ok [])
  | (c, i) :: rest =>
      let r := callCb .dispatching c ev
      match r.2 with
      | .error e => (r.1, .error e)
      | .ok keep =>
          let rr := dispatchPass ev rest
          match rr.2 with
          | .error e => (r.1 ++ rr.1, .error e)
          | .ok surv => (r.1 ++ rr.1, .ok (if keep then (c, i) :: surv else surv))

/-- The list comprehension of `_end`, line 136:
`[cb(tombstone) for (cb, _) in cbs]`.  Return values are discarded; a raising
callback aborts the comprehension. -/
def endPass : List Entry → List Effect × Option PyErr
  | [] => ([], none)
  | (c, _) :: rest =>
      let r := callCb .ended c tombstone
      match r.2 with
      | .error e => (r.1, some e)
      | .ok _ =>
          let rr := endPass rest
          (r.1 ++ rr.1, rr.2)

/-- The result of one top-level method call on the plumbing request: the new
value of `_event_callbacks`, the effects produced, and the exception the
call raised, if any. -/
structure OpResult where
  state : EventCallbacks
  effects : List Effect
  error : Option PyErr

/-- Model of `PlumbingRequest._end` (lines 132–136): snapshot `_event_callbacks`, set
it to `False`, then deliver the tombstone to every snapshotted callback.
Note that the attribute is `False` before any callback runs. -/
def end_request (cbs : List Entry) : OpResult :=
  let r := endPass cbs
  ⟨.false_, r.1, r.2⟩

/-- Model of `PlumbingRequest._add_event` (lines 140–154).  On `False`: warn and drop.
On a list: set `_event_callbacks = None`, run the dispatch pass, commit the
survivors, and call `_end` if no surviving entry has the interest flag.  If a
callback raises, the assignment `self._event_callbacks = surviving` on line
151 is never reached and the attribute stays `None`.  Called on `None` (a
reentrant push), the list comprehension iterates `None` and raises
`TypeError`, with no effects and no state change. -/
def add_event (s : EventCallbacks) (ev : Event) : OpResult :=
  match s with
  | .false_ => ⟨.false_, [.warned], none⟩
  | .none_ => ⟨.none_, [], some .typeError⟩
  | .list cbs =>
      let r := dispatchPass ev cbs
      match r.2 with
      | .error e => ⟨.none_, r.1, some e⟩
      | .ok surviving =>
          if any_interest surviving then ⟨.list surviving, r.1, none⟩
          else
            let re := end_request surviving
            ⟨re.state, r.1 ++ re.effects, re.error⟩

/-- Model of `PlumbingRequest.add_response`: `self._add_event(self.Event(response, None, is_last))`. -/
def add_response (s : EventCallbacks) (response : Msg) (is_last : Bool) : OpResult :=
  add_event s ⟨some response, none, is_last⟩

/-- Model of `PlumbingRequest.add_exception`: `self._add_event(self.Event(None, exception, True))`. -/
def add_exception (s : EventCallbacks) (exception : Exn) : OpResult :=
  add_event s ⟨none, some exception, true⟩

/-- Model of `PlumbingRequest.on_event` (lines 85–98): `self._event_callbacks.append((callback, is_interest))`.
On the `None` or `False` sentinel, `.append` raises `AttributeError`. -/
def on_event (s : EventCallbacks) (c : Cb) (is_interest : Bool) : OpResult :=
  match s with
  | .list cbs => ⟨.list (cbs ++ [(c, is_interest)]), [], none⟩
  | .none_ => ⟨.none_, [], some .attributeError⟩
  | .false_ => ⟨.false_, [], some .attributeError⟩

/-- Python `callback is not cb` identity test used by `_unregister_on_event`:
the handle removes exactly the plain registrations of the callback object it
was created for; the anonymous `on_interest_end` wrapper lambdas are never
handed out, so they never match. -/
def Cb.hasId : Cb → Nat → Bool
  | .plain i _, cid => i == cid
  | .interestEnd _, _ => false

/-- Model of `PlumbingRequest._unregister_on_event` (lines 100–111).  On `False`:
return immediately.  On a list: filter out the registrations of this
callback, and if no interest remains call `_end`.  Called on `None` (from
inside a dispatch pass), the list comprehension iterates `None` and raises
`TypeError` before any assignment, so nothing is removed. -/
def unregister_on_event (s : EventCallbacks) (cid : Nat) : OpResult :=
  match s with
  | .false_ => ⟨.false_, [], none⟩
  | .none_ => ⟨.none_, [], some .typeError⟩
  | .list cbs =>
      let remaining := cbs.filter (fun e => !(e.1.hasId cid))
      if any_interest remaining then ⟨.list remaining, [], none⟩
      else end_request remaining

/-- Model of `PlumbingRequest.on_interest_end` (lines 113–130).  On `False`: warn,
fire the callback, return.  Otherwise, if some registration has the interest
flag, append the wrapper lambda with `is_interest = False`; else fire the
callback immediately.  On `None`, `_any_interest` iterates `None` and raises
`TypeError`. -/
def on_interest_end (s : EventCallbacks) (id : Nat) : OpResult :=
  match s with
  | .false_ => ⟨.false_, [.warned, .fired id], none⟩
  | .none_ => ⟨.none_, [], some .typeError⟩
  | .list cbs =>
      if any_interest cbs then ⟨.list (cbs ++ [(.interestEnd id, false)]), [], none⟩
      else ⟨.list cbs, [.fired id], none⟩

/-- One top-level call made on the plumbing request by its users. -/
inductive Op where
  | onEvent (c : Cb) (is_interest : Bool)
  | unregister (cid : Nat)
  | onInterestEnd (id : Nat)
  | addResponse (m : Msg) (is_last : Bool)
  | addException (x : Exn)

/-- Execute one call. -/
def step (s : EventCallbacks) : Op → OpResult
  | .onEvent c i => on_event s c i
  | .unregister cid => unregister_on_event s cid
  | .onInterestEnd id => on_interest_end s id
  | .addResponse m l => add_response s m l
  | .addException x => add_exception s x

/-- Execute a sequence of calls, collecting all effects.  An exception raised
by one call propagates to that caller, who may catch it; the plumbing request
object survives with whatever state the failed call left, and later calls
are still attempted — this mirrors sequential cooperative use. -/
def run (s : EventCallbacks) : List Op → EventCallbacks × List Effect
  | [] => (s, [])
  | op :: rest =>
      let r := step s op
      let rr := run r.state rest
      (rr.1, r.effects ++ rr.2)

/-- Model of `PlumbingRequest.__init__`: `self._event_callbacks = []`. -/
def initPR : EventCallbacks := .list []

/-- Is this effect a delivery of some event to plain observer `id`? -/
def isDeliveryTo (id : Nat) : Effect → Bool
  | .delivered i _ => i == id
  | _ => false

/-- Is this effect a delivery of the tombstone event to plain observer `id`? -/
def isTombDeliveryTo (id : Nat) : Effect → Bool
  | .delivered i e => i == id && e == tombstone
  | _ => false

/-- Is this effect a delivery of any event to any observer? -/
def isDelivery : Effect → Bool
  | .delivered _ _ => true
  | _ => false

/-- Is this effect the firing of `on_interest_end` registration `id`? -/
def isFiredOf (id : Nat) : Effect → Bool
  | .fired i => i == id
  | _ => false

/-- Is this effect the firing of any `on_interest_end` callback? -/
def isFired : Effect → Bool
  | .fired _ => true
  | _ => false

/-- Number of deliveries to plain observer `id` in an effect trace. -/
def deliveredToCount (id : Nat) (fx : List Effect) : Nat :=
  (fx.filter (isDeliveryTo id)).length

/-- Number of tombstone deliveries to plain observer `id` in an effect trace. -/
def tombCount (id : Nat) (fx : List Effect) : Nat :=
  (fx.filter (isTombDeliveryTo id)).length

/-- Number of deliveries (to anyone) in an effect trace. -/
def deliveredCount (fx : List Effect) : Nat :=
  (fx.filter isDelivery).length

/-- Number of firings of `on_interest_end` registration `id` in a trace. -/
def firedCount (id : Nat) (fx : List Effect) : Nat :=
  (fx.filter (isFiredOf id)).length

/-- Number of registrations of a plain callback with identity `id` in an
observer list. -/
def plainIdCount (id : Nat) (cbs : List Entry) : Nat :=
  (cbs.filter (fun e => e.1.hasId id)).length

/-- Has the request ended (`_event_callbacks is False`)? -/
def isEnded : EventCallbacks → Bool
  | .false_ => true
  | _ => false

/-- A callback that never lets an exception escape its invocation (it may
attempt reentrant calls, but catches their errors). -/
def CbTotal (c : Cb) : Prop :=
  ∀ m ev, ∃ b, (callCb m c ev).2 = Except.ok b

/-- All entries of an observer list have total callbacks. -/
def EntriesTotal (cbs : List Entry) : Prop :=
  ∀ e ∈ cbs, CbTotal e.1

/-- The synchronous setup performed by `run_driving_plumbing_request`
(lines 162–220) on its `plumbing_request` argument.  The function body only
defines the local coroutine `wrapped` and calls
`asyncio.create_task(wrapped(), ...)`; it performs no call on
`plumbing_request` at bind time — in particular it never calls
`on_interest_end`, so no interest-end observer (and hence no cancellation
hook for the spawned task) is registered.  Its bind-time effect on the
plumbing request is therefore the empty operation list. -/
def run_driving_setup_ops : List Op := []

/-- An action taken by the binder's `wrapped` coroutine after the awaited
coroutine terminates: a log call, or a push into the plumbing request. -/
inductive WrapAction where
  | logInfo
  | logError
  | push (m : Msg) (is_last : Bool)
  deriving DecidableEq, Repr

/-- The terminal outcome of awaiting `coroutine` inside `wrapped`:
normal return, an `error.RenderableError` (carrying the behaviour of its
`to_message()`: a message, `None`, or a raised exception),
`asyncio.CancelledError`, or any other exception. -/
inductive Outcome where
  | success
  | renderable (to_message : Except Exn (Option Msg))
  | cancelled
  | otherException (e : Exn)

/-- Model of `run_driving_plumbing_request.wrapped` (lines 181–215), as a function of
the awaited coroutine's terminal outcome; `internal_server_error` stands for
`Message(code=INTERNAL_SERVER_ERROR)`.  On a renderable error: log at info
level, call `e.to_message()`; if that raises, or returns `None` (which the
code turns into a raised `ValueError`), log at error level and fall back to
the internal-server-error message; either way push the message with
`is_last=True`.  On `CancelledError`: `pass`.  On any other exception: push
the internal-server-error message with `is_last=True`, then log at error
level. -/
def wrapped (internal_server_error : Msg) : Outcome → List WrapAction
  | .success => []
  | .renderable to_message =>
      let msg : List WrapAction × Msg :=
        match to_message with
        | .ok (some m) => ([], m)
        | .ok none => ([.logError], internal_server_error)
        | .error _ => ([.logError], internal_server_error)
      [.logInfo] ++ msg.1 ++ [.push msg.2 true]
  | .cancelled => []
  | .otherException _ => [.push internal_server_error true, .logError]

/-- The pushes among a list of binder actions. -/
def pushesOf (acts : List WrapAction) : List (Msg × Bool) :=
  acts.foldr (fun a acc => match a with | .push m l => (m, l) :: acc | _ => acc) []

/-- A plain observer callback that always returns `True` (stays registered). -/
def alwaysTrueCb : Cb := .plain 0 (fun _ => .ret true)

/-- An observer callback that invokes its own unregister handle from inside
its own delivery and does not catch the resulting exception. -/
def selfUnregCb : Cb := .plain 0 (fun _ => .tryUnregister 0 (.ret true) (.raiseErr .typeError))

/-- An observer callback that raises an exception when delivered an event. -/
def raisingCb : Cb := .plain 3 (fun _ => .raiseErr (.cbError 7))

/-- C7: calling `add_response` or `add_exception` after the `PlumbingRequest`
has reached Ended (`_event_callbacks is False`) invokes no observer callback,
raises no error, leaves the state unchanged, and emits only a warning-level
diagnostic (`_add_event`, lines 140–144). -/
theorem C7_late_push_is_warned_noop :
    ∀ (m : Msg) (l : Bool) (x : Exn),
      add_response .false_ m l = ⟨.false_, [.warned], none⟩ ∧
      add_exception .false_ x = ⟨.false_, [.warned], none⟩ := by
  intro m l x
  exact ⟨rfl, rfl⟩

/-- C9: calling `on_event` after the `PlumbingRequest` has reached Ended
raises `AttributeError` (`False.append` does not exist) instead of
registering the observer or being a silent no-op. -/
theorem C9_register_after_ended_raises :
    ∀ (c : Cb) (i : Bool),
      on_event .false_ c i = ⟨.false_, [], some .attributeError⟩ := by
  intro c i
  rfl

/-- C6, counterexample: invoking an observer's unregister handle from inside
a dispatch pass is not safe.  Directly, `_unregister_on_event` on the
Dispatching sentinel raises `TypeError` (the list comprehension on line 109
iterates `None`); and in a full scenario — one registered observer whose
callback calls its own unregister handle, then a push — the push raises
`TypeError` and leaves `_event_callbacks` as `None`, contradicting the claim
that the handle neither raises an error nor corrupts the observer list. -/
theorem C6_counterexample :
    unregister_on_event .none_ 0 = ⟨.none_, [], some .typeError⟩ ∧
    (step (step initPR (.onEvent selfUnregCb true)).state (.addResponse 5 false)).error
      = some PyErr.typeError ∧
    (step (step initPR (.onEvent selfUnregCb true)).state (.addResponse 5 false)).state
      = EventCallbacks.none_ :=
  ⟨rfl, rfl, rfl⟩

/-- C6, amended: invoking an observer's unregister handle while the point is
Dispatching (`_event_callbacks is None`) raises `TypeError` and removes
nothing — the removal is neither applied nor deferred, and the state is left
unchanged.  Equivalently, inside a callback the reentrant unregister attempt
takes the error branch. -/
theorem C6_amended :
    ∀ (cid : Nat) (onOk onErr : CbProg),
      unregister_on_event .none_ cid = ⟨.none_, [], some .typeError⟩ ∧
      runCb .dispatching (.tryUnregister cid onOk onErr) = runCb .dispatching onErr := by
  intro cid onOk onErr
  exact ⟨rfl, rfl⟩

/-- C3, counterexample: a push with `is_last = True` on an Open point does
not by itself transition the point to Ended.  With a single
interest-counting observer whose callback returns `True`, pushing
`add_response(5, is_last=True)` leaves the point Open (not Ended) and
delivers no tombstone: the only effect is the delivery of the pushed event
itself, because `_add_event` (lines 146–154) only checks
`_any_interest()`, never `event.is_last`. -/
theorem C3_counterexample :
    isEnded (run initPR [.onEvent alwaysTrueCb true, .addResponse 5 true]).1 = false ∧
    (run initPR [.onEvent alwaysTrueCb true, .addResponse 5 true]).2
      = [.delivered 0 ⟨some 5, none, true⟩] :=
  ⟨rfl, rfl⟩

/-- C3, amended: after a dispatch pass of `_add_event` completes without a
callback raising, the point transitions to Ended (running `_end`, which
delivers the tombstone) if and only if no surviving registration carries the
interest flag; the `is_last` flag of the pushed event plays no role in the
transition. -/
theorem C3_amended (cbs : List Entry) (ev : Event) (fx : List Effect) (surv : List Entry)
    (h : dispatchPass ev cbs = (fx, .ok surv)) :
    add_event (.list cbs) ev =
      if any_interest surv then ⟨.list surv, fx, none⟩
      else ⟨.false_, fx ++ (endPass surv).1, (endPass surv).2⟩ := by
  by_cases hi : any_interest surv
  · simp [add_event, h, hi]
  · simp [add_event, h, hi, end_request]

/-- Witness for `C3_amended` at a concrete input: a single always-true
interest observer and a final push. -/
theorem C3_amended_witness :
    add_event (.list [(alwaysTrueCb, true)]) ⟨some 5, none, true⟩ =
      if any_interest [(alwaysTrueCb, true)] then
        ⟨.list [(alwaysTrueCb, true)], [.delivered 0 ⟨some 5, none, true⟩], none⟩
      else ⟨.false_, [.delivered 0 ⟨some 5, none, true⟩] ++ (endPass [(alwaysTrueCb, true)]).1,
            (endPass [(alwaysTrueCb, true)]).2⟩ :=
  C3_amended [(alwaysTrueCb, true)] ⟨some 5, none, true⟩
    [.delivered 0 ⟨some 5, none, true⟩] [(alwaysTrueCb, true)] rfl

/-- C2: contrary to its own docstring ("lack of interest in the plumbing
request cancels the task", lines 164–165 and 171–172),
`run_driving_plumbing_request` registers no interest-end observer on the
plumbing request: its bind-time effect on the request is the empty operation
list, so when the sole interest-counting observer's unregister handle is
invoked, interest ends without any interest-end callback firing — no
cancellation request can reach the spawned producer task. -/
theorem C2_no_cancellation_hook :
    run_driving_setup_ops = [] ∧
    isEnded (run initPR ([.onEvent alwaysTrueCb true] ++ run_driving_setup_ops
      ++ [.unregister 0])).1 = true ∧
    (run initPR ([.onEvent alwaysTrueCb true] ++ run_driving_setup_ops
      ++ [.unregister 0])).2.any isFired = false :=
  ⟨rfl, rfl, rfl⟩

/-- C8: classification of the producer coroutine's terminal outcome by
`wrapped` (lines 181–215): a renderable error leads to exactly one final
response push carrying `to_message()`'s result, falling back to the
internal-server-error message (with an error-level log) when `to_message`
raises or returns `None`; any other non-cancellation exception leads to
exactly one final internal-server-error push plus an error-level log; a
cooperative cancellation leads to no push at all. -/
theorem C8_wrapped_outcome_classification :
    ∀ (ise m x : Nat),
      wrapped ise (.renderable (.ok (some m))) = [.logInfo, .push m true] ∧
      wrapped ise (.renderable (.ok none)) = [.logInfo, .logError, .push ise true] ∧
      wrapped ise (.renderable (.error x)) = [.logInfo, .logError, .push ise true] ∧
      wrapped ise .cancelled = [] ∧
      wrapped ise (.otherException x) = [.push ise true, .logError] ∧
      pushesOf (wrapped ise (.renderable (.ok (some m)))) = [(m, true)] ∧
      pushesOf (wrapped ise (.renderable (.ok none))) = [(ise, true)] ∧
      pushesOf (wrapped ise (.renderable (.error x))) = [(ise, true)] ∧
      pushesOf (wrapped ise .cancelled) = [] ∧
      pushesOf (wrapped ise (.otherException x)) = [(ise, true)] := by
  intro ise m x
  exact ⟨rfl, rfl, rfl, rfl, rfl, rfl, rfl, rfl, rfl, rfl⟩

/-- Effects produced by a callback program body are only warnings: a callback
body never delivers events or fires interest-end callbacks by itself. -/
theorem runCb_effects_warned (m : Mid) (p : CbProg) :
    ∀ e ∈ (runCb m p).1, e = Effect.warned := by
  induction p with
  | ret b => simp [runCb]
  | raiseErr e => simp [runCb]
  | tryAddEvent ev onOk onErr ihOk ihErr =>
      cases m with
      | dispatching => simpa [runCb] using ihErr
      | ended =>
          intro e he
          simp only [runCb, List.mem_cons] at he
          rcases he with h | h
          · exact h
          · exact ihOk e h
  | tryUnregister cid onOk onErr ihOk ihErr =>
      cases m with
      | dispatching => simpa [runCb] using ihErr
      | ended => simpa [runCb] using ihOk

/-- Invoking one registered callback delivers to plain observer `id` exactly
once if the callback is the plain callback with identity `id`, and never
otherwise. -/
theorem callCb_deliveredToCount (m : Mid) (c : Cb) (ev : Event) (id : Nat) :
    deliveredToCount id (callCb m c ev).1 = if c.hasId id then 1 else 0 := by
  cases c with
  | plain i prog =>
      have hw : (runCb m (prog ev)).1.filter (isDeliveryTo id) = [] := by
        refine List.filter_eq_nil_iff.mpr ?_
        intro a ha
        rw [runCb_effects_warned m (prog ev) a ha]
        simp [isDeliveryTo]
      by_cases hid : i = id
      · have hb : (i == id) = true := by simp [hid]
        simp [callCb, deliveredToCount, Cb.hasId, isDeliveryTo, hb, List.filter, hw]
      · have hb : (i == id) = false := by simp [hid]
        simp [callCb, deliveredToCount, Cb.hasId, isDeliveryTo, hb, List.filter, hw]
  | interestEnd i =>
      by_cases hl : ev.is_last
      · simp [callCb, deliveredToCount, Cb.hasId, isDeliveryTo, hl, List.filter]
      · simp [callCb, deliveredToCount, Cb.hasId, isDeliveryTo, hl, List.filter]

/-- Splitting a delivery count over concatenated effect traces. -/
theorem deliveredToCount_append (id : Nat) (l1 l2 : List Effect) :
    deliveredToCount id (l1 ++ l2) = deliveredToCount id l1 + deliveredToCount id l2 := by
  simp [deliveredToCount, List.filter_append]

/-- Counting registrations over a cons cell of the observer list. -/
theorem plainIdCount_cons (id : Nat) (c : Cb) (i : Bool) (tl : List Entry) :
    plainIdCount id ((c, i) :: tl) = (if c.hasId id then 1 else 0) + plainIdCount id tl := by
  cases hc : c.hasId id <;> simp [plainIdCount, List.filter, hc, Nat.add_comm]

/-- A dispatch pass over an observer list whose callbacks all catch their own
exceptions delivers the event to each registered plain callback exactly once
(counted per registration identity), no matter what reentrant calls the
callbacks attempt. -/
theorem dispatchPass_deliveredToCount (cbs : List Entry) (ev : Event)
    (h : EntriesTotal cbs) (id : Nat) :
    deliveredToCount id (dispatchPass ev cbs).1 = plainIdCount id cbs := by
  revert h
  induction cbs with
  | nil => intro h; rfl
  | cons hd tl ih =>
      intro h
      obtain ⟨c, i⟩ := hd
      obtain ⟨b, hb⟩ := h (c, i) (List.mem_cons_self _ _) .dispatching ev
      have htl : EntriesTotal tl := fun e he => h e (List.mem_cons_of_mem _ he)
      have hcnt := callCb_deliveredToCount .dispatching c ev id
      rcases hcall : callCb .dispatching c ev with ⟨fx, r⟩
      rw [hcall] at hb hcnt
      simp only at hb
      subst hb
      rcases hrr : dispatchPass ev tl with ⟨fx2, r2⟩
      have ihtl := ih htl
      rw [hrr] at ihtl
      simp only at hcnt ihtl
      cases r2 with
      | error e =>
          simp only [dispatchPass, hcall, hrr]
          rw [deliveredToCount_append, plainIdCount_cons, hcnt, ihtl]
      | ok surv =>
          simp only [dispatchPass, hcall, hrr]
          rw [deliveredToCount_append, plainIdCount_cons, hcnt, ihtl]

/-- C5: pushing reentrantly from inside an observer callback while a
dispatch pass is running fails loudly and harmlessly.  The reentrant
`_add_event` on the Dispatching sentinel raises `TypeError` without invoking
any observer and without changing the state (it is rejected, never
interleaved); inside the callback the attempt takes the error branch; and a
dispatch pass over callbacks that catch the failure still delivers the outer
event to every registered plain observer exactly once — no duplicate and no
missed delivery for the other observers. -/
theorem C5_reentrant_push_rejected (cbs : List Entry) (ev : Event)
    (h : EntriesTotal cbs) :
    (∀ ev2 : Event, add_event .none_ ev2 = ⟨.none_, [], some .typeError⟩) ∧
    (∀ (ev2 : Event) (onOk onErr : CbProg),
      runCb .dispatching (.tryAddEvent ev2 onOk onErr) = runCb .dispatching onErr) ∧
    (∀ id : Nat, deliveredToCount id (dispatchPass ev cbs).1 = plainIdCount id cbs) := by
  refine ⟨fun _ => rfl, fun _ _ _ => rfl, fun id => ?_⟩
  exact dispatchPass_deliveredToCount cbs ev h id

/-- C10: if an observer callback raises during a dispatch pass, the exception
propagates out of `add_response`/`add_exception` to the pusher and the point
is left with `_event_callbacks = None` (the assignment on line 151 is never
reached), so every subsequent push, registration, unregistration — and
`on_interest_end` — on that point raises an error and leaves the state
stuck at `None`. -/
theorem C10_callback_exception_bricks_point
    (cbs : List Entry) (ev : Event) (fx : List Effect) (e : PyErr)
    (h : dispatchPass ev cbs = (fx, .error e)) :
    add_event (.list cbs) ev = ⟨.none_, fx, some e⟩ ∧
    ∀ op : Op, (step .none_ op).state = .none_ ∧ (step .none_ op).error.isSome = true := by
  constructor
  · simp [add_event, h]
  · intro op
    cases op <;> exact ⟨rfl, rfl⟩

/-- Witness for `C10_callback_exception_bricks_point`: a single raising
observer; the push propagates its exception, the state is bricked, and a
later push raises. -/
theorem C10_witness :
    add_event (.list [(raisingCb, true)]) ⟨some 2, none, false⟩
      = ⟨.none_, [.delivered 3 ⟨some 2, none, false⟩], some (.cbError 7)⟩ ∧
    (step .none_ (.addResponse 4 false)).state = .none_ ∧
    (step .none_ (.addResponse 4 false)).error.isSome = true :=
  ⟨(C10_callback_exception_bricks_point [(raisingCb, true)] ⟨some 2, none, false⟩
      [.delivered 3 ⟨some 2, none, false⟩] (.cbError 7) rfl).1,
   (C10_callback_exception_bricks_point [(raisingCb, true)] ⟨some 2, none, false⟩
      [.delivered 3 ⟨some 2, none, false⟩] (.cbError 7) rfl).2 (.addResponse 4 false)⟩

/-- Witness for `C5_reentrant_push_rejected`: a two-observer list where the
first observer reentrantly pushes and catches the `TypeError`; both
observers still receive the outer event exactly once. -/
theorem C5_witness :
    (∀ ev2 : Event, add_event .none_ ev2 = ⟨.none_, [], some .typeError⟩) ∧
    (∀ (ev2 : Event) (onOk onErr : CbProg),
      runCb .dispatching (.tryAddEvent ev2 onOk onErr) = runCb .dispatching onErr) ∧
    (∀ id : Nat,
      deliveredToCount id (dispatchPass ⟨some 1, none, false⟩
        [(.plain 0 (fun _ => .tryAddEvent ⟨some 9, none, true⟩ (.ret true) (.ret true)), true),
         (.plain 1 (fun _ => .ret true), true)]).1
      = plainIdCount id
        [(.plain 0 (fun _ => .tryAddEvent ⟨some 9, none, true⟩ (.ret true) (.ret true)), true),
         (.plain 1 (fun _ => .ret true), true)]) :=
  C5_reentrant_push_rejected
    [(.plain 0 (fun _ => .tryAddEvent ⟨some 9, none, true⟩ (.ret true) (.ret true)), true),
     (.plain 1 (fun _ => .ret true), true)]
    ⟨some 1, none, false⟩
    (by
      intro e he m ev
      simp only [List.mem_cons, List.mem_singleton] at he
      rcases he with h0 | h1 | hf
      · subst h0
        cases m <;> exact ⟨true, rfl⟩
      · subst h1
        cases m <;> exact ⟨true, rfl⟩
      · simp at hf)

/-- The id of a plain observer registered by an operation (empty otherwise). -/
def opRegIds : Op → List Nat
  | .onEvent (.plain i _) _ => [i]
  | _ => []

/-- All plain-observer ids registered by a sequence of operations. -/
def regIds (ops : List Op) : List Nat :=
  (ops.map opRegIds).flatten

/-- Number of times `is_last`-flagged events were delivered to plain observer `id`. -/
def isFinalDeliveryTo (id : Nat) : Effect → Bool
  | .delivered i e => i == id && e.is_last
  | _ => false

/-- Count of final-event deliveries to plain observer `id`. -/
def finalDeliveredCount (id : Nat) (fx : List Effect) : Nat :=
  (fx.filter (isFinalDeliveryTo id)).length

/-- Once the point has ended, every operation leaves it ended. -/
theorem step_false_state (op : Op) : (step .false_ op).state = .false_ := by
  cases op <;> rfl

/-- Once the point has ended, no operation delivers any event to any observer. -/
theorem step_false_deliveries (op : Op) :
    deliveredCount (step .false_ op).effects = 0 := by
  cases op <;> rfl

/-- Once the point has ended, no sequence of operations delivers any event. -/
theorem run_false_no_deliveries (ops : List Op) :
    deliveredCount (run .false_ ops).2 = 0 ∧ (run .false_ ops).1 = .false_ := by
  induction ops with
  | nil => exact ⟨rfl, rfl⟩
  | cons op rest ih =>
      have hst := step_false_state op
      have hdel := step_false_deliveries op
      constructor
      · show deliveredCount ((step .false_ op).effects ++ (run (step .false_ op).state rest).2) = 0
        rw [hst]
        have hih := ih.1
        simp only [deliveredCount, List.filter_append, List.length_append] at hdel hih ⊢
        omega
      · show (run (step .false_ op).state rest).1 = .false_
        rw [hst]
        exact ih.2

/-- On the Dispatching sentinel every operation raises, produces no effects,
and leaves the sentinel in place. -/
theorem step_none (op : Op) :
    (step .none_ op).state = .none_ ∧ (step .none_ op).effects = [] ∧
    (step .none_ op).error.isSome = true := by
  cases op <;> exact ⟨rfl, rfl, rfl⟩

/-- From the Dispatching sentinel, no sequence of operations produces any
effect. -/
theorem run_none_no_effects (ops : List Op) :
    (run .none_ ops).2 = [] ∧ (run .none_ ops).1 = .none_ := by
  induction ops with
  | nil => exact ⟨rfl, rfl⟩
  | cons op rest ih =>
      obtain ⟨h1, h2, _⟩ := step_none op
      constructor
      · show (step .none_ op).effects ++ (run (step .none_ op).state rest).2 = []
        rw [h1, h2, ih.1]
        rfl
      · show (run (step .none_ op).state rest).1 = .none_
        rw [h1]
        exact ih.2

/-- A tombstone delivery is a delivery. -/
theorem tombCount_le_deliveredCount (id : Nat) (fx : List Effect) :
    tombCount id fx ≤ deliveredCount fx := by
  induction fx with
  | nil => exact Nat.le_refl 0
  | cons e tl ih =>
      have himp : isTombDeliveryTo id e = true → isDelivery e = true := by
        cases e <;> simp [isTombDeliveryTo, isDelivery]
      simp only [tombCount, deliveredCount, List.filter] at ih ⊢
      cases ht : isTombDeliveryTo id e with
      | true =>
          rw [himp ht]
          simpa using ih
      | false =>
          cases hd : isDelivery e with
          | true => simp; omega
          | false => simpa using ih

/-- Splitting a tombstone-delivery count over concatenated traces. -/
theorem tombCount_append (id : Nat) (l1 l2 : List Effect) :
    tombCount id (l1 ++ l2) = tombCount id l1 + tombCount id l2 := by
  simp [tombCount, List.filter_append]

/-- Invoking a callback with a non-tombstone event never produces a
tombstone delivery. -/
theorem callCb_tombCount_zero (m : Mid) (c : Cb) (ev : Event) (id : Nat)
    (h : ev ≠ tombstone) : tombCount id (callCb m c ev).1 = 0 := by
  have : (callCb m c ev).1.filter (isTombDeliveryTo id) = [] := by
    refine List.filter_eq_nil_iff.mpr ?_
    intro a ha
    cases c with
    | plain i prog =>
        simp only [callCb, List.mem_cons] at ha
        rcases ha with h0 | h0
        · subst h0
          simp [isTombDeliveryTo, h]
        · rw [runCb_effects_warned m (prog ev) a h0]
          simp [isTombDeliveryTo]
    | interestEnd i =>
        by_cases hl : ev.is_last
        · simp only [callCb, hl, if_true, List.mem_singleton] at ha
          simp [ha, isTombDeliveryTo]
        · simp [callCb, hl] at ha
  simp [tombCount, this]

/-- A dispatch pass of a pushed (non-tombstone) event delivers no tombstone. -/
theorem dispatchPass_tombCount_zero (ev : Event) (id : Nat) (h : ev ≠ tombstone) :
    ∀ cbs : List Entry, tombCount id (dispatchPass ev cbs).1 = 0 := by
  intro cbs
  induction cbs with
  | nil => rfl
  | cons hd tl ih =>
      obtain ⟨c, i⟩ := hd
      have hc := callCb_tombCount_zero .dispatching c ev id h
      rcases hcall : callCb .dispatching c ev with ⟨fx, r⟩
      rw [hcall] at hc
      simp only at hc
      rcases hrr : dispatchPass ev tl with ⟨fx2, r2⟩
      rw [hrr] at ih
      simp only at ih
      cases r with
      | error e => simp only [dispatchPass, hcall]; exact hc
      | ok keep =>
          cases r2 with
          | error e =>
              simp only [dispatchPass, hcall, hrr]
              rw [tombCount_append, hc, ih]
          | ok surv =>
              simp only [dispatchPass, hcall, hrr]
              rw [tombCount_append, hc, ih]

/-- Invoking a callback with the tombstone delivers the tombstone to plain
observer `id` exactly once when the callback is the plain one with that
identity, and never otherwise. -/
theorem callCb_tombCount_at_tombstone (m : Mid) (c : Cb) (id : Nat) :
    tombCount id (callCb m c tombstone).1 = if c.hasId id then 1 else 0 := by
  cases c with
  | plain i prog =>
      have hw : (runCb m (prog tombstone)).1.filter (isTombDeliveryTo id) = [] := by
        refine List.filter_eq_nil_iff.mpr ?_
        intro a ha
        rw [runCb_effects_warned m (prog tombstone) a ha]
        simp [isTombDeliveryTo]
      by_cases hid : i = id
      · have hb : (i == id) = true := by simp [hid]
        simp [callCb, tombCount, Cb.hasId, isTombDeliveryTo, hb, List.filter, hw]
      · have hb : (i == id) = false := by simp [hid]
        simp [callCb, tombCount, Cb.hasId, isTombDeliveryTo, hb, List.filter, hw]
  | interestEnd i =>
      simp [callCb, tombCount, Cb.hasId, isTombDeliveryTo, tombstone, List.filter]

/-- The `_end` pass delivers the tombstone to plain observer `id` at most
once per registration of `id` in the observer list. -/
theorem endPass_tombCount_le (id : Nat) (cbs : List Entry) :
    tombCount id (endPass cbs).1 ≤ plainIdCount id cbs := by
  induction cbs with
  | nil => exact Nat.le_refl 0
  | cons hd tl ih =>
      obtain ⟨c, i⟩ := hd
      have hc := callCb_tombCount_at_tombstone .ended c id
      rcases hcall : callCb .ended c tombstone with ⟨fx, r⟩
      rw [hcall] at hc
      simp only at hc
      rw [plainIdCount_cons]
      cases r with
      | error e =>
          simp only [endPass, hcall]
          omega
      | ok b =>
          simp only [endPass, hcall]
          rw [tombCount_append]
          omega

/-- With callbacks that do not raise, the `_end` pass delivers the tombstone
to plain observer `id` exactly once per registration of `id`. -/
theorem endPass_tombCount_eq (id : Nat) (cbs : List Entry) (h : EntriesTotal cbs) :
    tombCount id (endPass cbs).1 = plainIdCount id cbs := by
  induction cbs with
  | nil => rfl
  | cons hd tl ih =>
      obtain ⟨c, i⟩ := hd
      obtain ⟨b, hb⟩ := h (c, i) (List.mem_cons_self _ _) .ended tombstone
      have htl : EntriesTotal tl := fun e he => h e (List.mem_cons_of_mem _ he)
      have hc := callCb_tombCount_at_tombstone .ended c id
      rcases hcall : callCb .ended c tombstone with ⟨fx, r⟩
      rw [hcall] at hc hb
      simp only at hc hb
      subst hb
      simp only [endPass, hcall]
      rw [plainIdCount_cons, tombCount_append, hc, ih htl]

/-- The survivors of a dispatch pass form a sublist of the dispatched
observer list. -/
theorem dispatchPass_surv_sublist (ev : Event) :
    ∀ (cbs : List Entry) (fx : List Effect) (surv : List Entry),
      dispatchPass ev cbs = (fx, .ok surv) → surv.Sublist cbs := by
  intro cbs
  induction cbs with
  | nil =>
      intro fx surv h
      simp only [dispatchPass, Prod.mk.injEq] at h
      obtain ⟨-, h2⟩ := h
      cases h2
      exact List.Sublist.refl _
  | cons hd tl ih =>
      intro fx surv h
      obtain ⟨c, i⟩ := hd
      rcases hcall : callCb .dispatching c ev with ⟨fx1, r⟩
      rcases hrr : dispatchPass ev tl with ⟨fx2, r2⟩
      cases r with
      | error e =>
          simp only [dispatchPass, hcall, Prod.mk.injEq] at h
          cases h.2
      | ok keep =>
          cases r2 with
          | error e =>
              simp only [dispatchPass, hcall, hrr, Prod.mk.injEq] at h
              cases h.2
          | ok surv2 =>
              simp only [dispatchPass, hcall, hrr, Prod.mk.injEq] at h
              have hs2 : surv2.Sublist tl := ih fx2 surv2 hrr
              obtain ⟨-, h2⟩ := h
              cases keep with
              | true =>
                  simp only [if_true] at h2
                  injection h2 with h2
                  subst h2
                  exact List.Sublist.cons₂ _ hs2
              | false =>
                  simp only [Bool.false_eq_true, if_false] at h2
                  injection h2 with h2
                  subst h2
                  exact List.Sublist.cons _ hs2

/-- Sublists of the observer list carry no more registrations of `id`. -/
theorem plainIdCount_sublist_le (id : Nat) (l1 l2 : List Entry)
    (h : l1.Sublist l2) : plainIdCount id l1 ≤ plainIdCount id l2 :=
  List.Sublist.length_le (List.Sublist.filter _ h)

/-- Splitting a count of registrations over appended observer lists. -/
theorem plainIdCount_append (id : Nat) (l1 l2 : List Entry) :
    plainIdCount id (l1 ++ l2) = plainIdCount id l1 + plainIdCount id l2 := by
  simp [plainIdCount, List.filter_append]

/-- Registered ids of a cons of operations. -/
theorem regIds_cons (op : Op) (rest : List Op) :
    regIds (op :: rest) = opRegIds op ++ regIds rest := by
  simp [regIds]

/-- The registration count of one `on_event` call matches the callback's
identity. -/
theorem opRegIds_count (c : Cb) (i : Bool) (id : Nat) :
    (opRegIds (.onEvent c i)).count id = if c.hasId id then 1 else 0 := by
  cases c with
  | plain i2 prog =>
      by_cases hid : i2 = id
      · simp [opRegIds, Cb.hasId, hid]
      · have hb : (i2 == id) = false := by simp [hid]
        simp [opRegIds, Cb.hasId, hb, List.count_singleton, List.count_cons]
  | interestEnd i2 => simp [opRegIds, Cb.hasId]

/-- Across any operation sequence started on an Open observer list, the
tombstone is delivered to plain observer `id` at most once per registration
of `id`, past or future. -/
theorem run_tombCount_le (id : Nat) :
    ∀ (ops : List Op) (cbs : List Entry),
      tombCount id (run (.list cbs) ops).2 ≤
        plainIdCount id cbs + (regIds ops).count id := by
  intro ops
  induction ops with
  | nil => intro cbs; exact Nat.zero_le _
  | cons op rest ih =>
      intro cbs
      have hfalse : ∀ more : List Op, tombCount id (run .false_ more).2 = 0 := by
        intro more
        have h1 := (run_false_no_deliveries more).1
        have h2 := tombCount_le_deliveredCount id (run .false_ more).2
        omega
      have hnone : ∀ more : List Op, tombCount id (run .none_ more).2 = 0 := by
        intro more
        rw [(run_none_no_effects more).1]
        rfl
      have hrun : run (.list cbs) (op :: rest)
          = ((run (step (.list cbs) op).state rest).1,
             (step (.list cbs) op).effects ++ (run (step (.list cbs) op).state rest).2) := rfl
      rw [hrun, regIds_cons]
      simp only [List.count_append]
      rw [tombCount_append]
      have key : ∀ ev : Event, ev ≠ tombstone →
          tombCount id (add_event (.list cbs) ev).effects
            + tombCount id (run (add_event (.list cbs) ev).state rest).2
            ≤ plainIdCount id cbs + (regIds rest).count id := by
        intro ev hev
        have hdt := dispatchPass_tombCount_zero ev id hev cbs
        rcases hd : dispatchPass ev cbs with ⟨fx, r⟩
        rw [hd] at hdt
        simp only at hdt
        cases r with
        | error e =>
            simp only [add_event, hd]
            rw [hdt, hnone rest]
            omega
        | ok surv =>
            have hple : plainIdCount id surv ≤ plainIdCount id cbs :=
              plainIdCount_sublist_le id surv cbs (dispatchPass_surv_sublist ev cbs fx surv hd)
            cases hi : any_interest surv with
            | true =>
                simp only [add_event, hd, hi, if_true]
                have := ih surv
                omega
            | false =>
                simp only [add_event, hd, hi, Bool.false_eq_true, if_false, end_request]
                rw [tombCount_append, hdt, hfalse rest]
                have := endPass_tombCount_le id surv
                omega
      cases op with
      | onEvent c i =>
          have hstep : step (.list cbs) (.onEvent c i)
              = ⟨.list (cbs ++ [(c, i)]), [], none⟩ := rfl
          rw [hstep, opRegIds_count]
          have hih := ih (cbs ++ [(c, i)])
          rw [plainIdCount_append, plainIdCount_cons] at hih
          simp only [plainIdCount, List.filter, tombCount, List.filter_nil, List.length_nil] at hih ⊢
          by_cases hc : c.hasId id
          · simp only [hc, if_true] at hih ⊢
            omega
          · simp only [hc, if_false] at hih ⊢
            omega
      | unregister cid =>
          have hsub : (cbs.filter (fun e => !(e.1.hasId cid))).Sublist cbs :=
            List.filter_sublist cbs
          have hple := plainIdCount_sublist_le id _ cbs hsub
          cases hi : any_interest (cbs.filter (fun e => !(e.1.hasId cid))) with
          | true =>
              have hstep : step (.list cbs) (.unregister cid)
                  = ⟨.list (cbs.filter (fun e => !(e.1.hasId cid))), [], none⟩ := by
                simp only [step, unregister_on_event, hi, if_true]
              rw [hstep]
              have hih := ih (cbs.filter (fun e => !(e.1.hasId cid)))
              simp only [opRegIds, List.count_nil, tombCount, List.filter_nil,
                List.length_nil] at hih ⊢
              omega
          | false =>
              have hstep : step (.list cbs) (.unregister cid)
                  = ⟨.false_, (endPass (cbs.filter (fun e => !(e.1.hasId cid)))).1,
                     (endPass (cbs.filter (fun e => !(e.1.hasId cid)))).2⟩ := by
                simp only [step, unregister_on_event, hi, Bool.false_eq_true, if_false,
                  end_request]
              rw [hstep]
              have hend := endPass_tombCount_le id (cbs.filter (fun e => !(e.1.hasId cid)))
              simp only [opRegIds, List.count_nil]
              rw [hfalse rest]
              omega
      | onInterestEnd k =>
          cases hi : any_interest cbs with
          | true =>
              have hstep : step (.list cbs) (.onInterestEnd k)
                  = ⟨.list (cbs ++ [(.interestEnd k, false)]), [], none⟩ := by
                simp only [step, on_interest_end, hi, if_true]
              rw [hstep]
              have hih := ih (cbs ++ [(.interestEnd k, false)])
              rw [plainIdCount_append, plainIdCount_cons] at hih
              simp only [Cb.hasId, Bool.false_eq_true, if_false, plainIdCount, List.filter_nil,
                List.length_nil, opRegIds, List.count_nil, tombCount] at hih ⊢
              omega
          | false =>
              have hstep : step (.list cbs) (.onInterestEnd k)
                  = ⟨.list cbs, [.fired k], none⟩ := by
                simp only [step, on_interest_end, hi, Bool.false_eq_true, if_false]
              rw [hstep]
              have hih := ih cbs
              have hz : tombCount id [Effect.fired k] = 0 := rfl
              simp only [opRegIds, List.count_nil] at hih ⊢
              omega
      | addResponse m l =>
          have hev : (⟨some m, none, l⟩ : Event) ≠ tombstone := by
            simp [tombstone]
          have hk := key ⟨some m, none, l⟩ hev
          simp only [step, add_response, opRegIds, List.count_nil]
          omega
      | addException x =>
          have hev : (⟨none, some x, true⟩ : Event) ≠ tombstone := by
            simp [tombstone]
          have hk := key ⟨none, some x, true⟩ hev
          simp only [step, add_exception, opRegIds, List.count_nil]
          omega

/-- C1, counterexample: it is not the case that every observer receives an
`is-final = true` event exactly once.  With one interest-counting observer
whose callback always returns `True`, two `add_exception` pushes deliver two
`is-final` events to the same observer (the point never ends because
`_add_event` ignores `is_last`); and an observer that invokes its unregister
handle before any push receives zero events even though the point ends. -/
theorem C1_counterexample :
    finalDeliveredCount 0
      (run initPR [.onEvent alwaysTrueCb true, .addException 7, .addException 7]).2 = 2 ∧
    finalDeliveredCount 0 (run initPR [.onEvent alwaysTrueCb true, .unregister 0]).2 = 0 ∧
    isEnded (run initPR [.onEvent alwaysTrueCb true, .unregister 0]).1 = true :=
  ⟨rfl, rfl, rfl⟩

/-- C1, amended: for any sequence of registrations, deregistrations and
pushes in which each `on_event` registration uses a distinct callback
identity, every observer receives the synthetic tombstone at most once;
once the point has Ended no observer receives any further event; and at the
moment the point ends, `_end` delivers the tombstone exactly once to every
still-registered observer whose callback does not raise.  (Observers may see
more than one `is_last` event while the point stays Open, and observers that
deregister or are dropped earlier may see none — as the counterexample
shows.) -/
theorem C1_amended (ops : List Op) (hids : (regIds ops).Nodup) :
    (∀ id : Nat, tombCount id (run initPR ops).2 ≤ 1) ∧
    (∀ more : List Op, deliveredCount (run .false_ more).2 = 0) ∧
    (∀ cbs : List Entry, EntriesTotal cbs →
      ∀ id : Nat, tombCount id (end_request cbs).effects = plainIdCount id cbs) := by
  refine ⟨?_, fun more => (run_false_no_deliveries more).1,
    fun cbs h id => endPass_tombCount_eq id cbs h⟩
  intro id
  have h1 := run_tombCount_le id ops []
  have h2 : (regIds ops).count id ≤ 1 := List.nodup_iff_count_le_one.mp hids id
  have h0 : plainIdCount id ([] : List Entry) = 0 := rfl
  show tombCount id (run (.list []) ops).2 ≤ 1
  omega

/-- Witness for `C1_amended` at a concrete input: one registration followed
by its deregistration. -/
theorem C1_witness :
    tombCount 0 (run initPR [.onEvent alwaysTrueCb true, .unregister 0]).2 ≤ 1 ∧
    deliveredCount (run .false_ [.addResponse 9 true]).2 = 0 ∧
    tombCount 1 (end_request [(.plain 1 (fun _ => .ret true), true)]).effects
      = plainIdCount 1 [(.plain 1 (fun _ => .ret true), true)] := by
  have h := C1_amended [.onEvent alwaysTrueCb true, .unregister 0] (by decide)
  refine ⟨h.1 0, h.2.1 [.addResponse 9 true], h.2.2 [(.plain 1 (fun _ => .ret true), true)] ?_ 1⟩
  intro e he m ev
  simp only [List.mem_singleton] at he
  subst he
  cases m <;> exact ⟨true, rfl⟩

/-- Is this callback the `on_interest_end` wrapper of registration `j`? -/
def Cb.isWrapperOf : Cb → Nat → Bool
  | .interestEnd i, j => i == j
  | .plain _ _, _ => false

/-- Number of `on_interest_end` wrappers of registration `j` currently in the
observer list. -/
def wrapperCount (j : Nat) (cbs : List Entry) : Nat :=
  (cbs.filter (fun e => e.1.isWrapperOf j)).length

/-- Does this operation call `on_interest_end` with registration id `j`? -/
def isIEnd (j : Nat) : Op → Bool
  | .onInterestEnd i => i == j
  | _ => false

/-- A user-side operation: a registration passes a plain callback (not the
internal wrapper shape) that never lets an exception escape. -/
def OpWellFormed : Op → Prop
  | .onEvent c _ => CbTotal c ∧ ∃ i prog, c = .plain i prog
  | _ => True

/-- Splitting a fired count over concatenated traces. -/
theorem firedCount_append (j : Nat) (l1 l2 : List Effect) :
    firedCount j (l1 ++ l2) = firedCount j l1 + firedCount j l2 := by
  simp [firedCount, List.filter_append]

/-- Splitting a wrapper count over a cons of the observer list. -/
theorem wrapperCount_cons (j : Nat) (c : Cb) (i : Bool) (tl : List Entry) :
    wrapperCount j ((c, i) :: tl)
      = (if c.isWrapperOf j then 1 else 0) + wrapperCount j tl := by
  cases hc : c.isWrapperOf j <;> simp [wrapperCount, List.filter, hc, Nat.add_comm]

/-- Splitting a wrapper count over appended observer lists. -/
theorem wrapperCount_append (j : Nat) (l1 l2 : List Entry) :
    wrapperCount j (l1 ++ l2) = wrapperCount j l1 + wrapperCount j l2 := by
  simp [wrapperCount, List.filter_append]

/-- The unregister filter never removes `on_interest_end` wrappers: the
identity comparison `callback is not cb` only matches the plain callback the
handle was created for. -/
theorem wrapperCount_unregister_filter (j cid : Nat) (cbs : List Entry) :
    wrapperCount j (cbs.filter (fun e => !(e.1.hasId cid))) = wrapperCount j cbs := by
  induction cbs with
  | nil => rfl
  | cons hd tl ih =>
      obtain ⟨c, i⟩ := hd
      rw [List.filter_cons]
      cases hc : !((c, i).1.hasId cid) with
      | true =>
          rw [if_pos rfl, wrapperCount_cons, wrapperCount_cons, ih]
      | false =>
          rw [if_neg Bool.false_ne_true]
          cases c with
          | plain i2 prog =>
              rw [wrapperCount_cons]
              simp only [Cb.isWrapperOf, Bool.false_eq_true, if_false, ih]
              omega
          | interestEnd i2 => simp [Cb.hasId] at hc

/-- The `on_interest_end` wrapper lambda never raises. -/
theorem CbTotal_interestEnd (i : Nat) : CbTotal (.interestEnd i) := by
  intro m ev
  by_cases hl : ev.is_last
  · exact ⟨false, by simp [callCb, hl]⟩
  · exact ⟨true, by simp [callCb, hl]⟩

/-- Totality of entries survives appending a total entry. -/
theorem EntriesTotal_append_one (cbs : List Entry) (c : Cb) (i : Bool)
    (h : EntriesTotal cbs) (hc : CbTotal c) : EntriesTotal (cbs ++ [(c, i)]) := by
  intro e he
  rcases List.mem_append.mp he with h1 | h1
  · exact h e h1
  · rw [List.mem_singleton.mp h1]
    exact hc

/-- Totality of entries survives passing to a sublist. -/
theorem EntriesTotal_sublist (l1 l2 : List Entry) (hs : l1.Sublist l2)
    (h : EntriesTotal l2) : EntriesTotal l1 :=
  fun e he => h e (hs.subset he)

/-- The fired count contributed by invoking one callback: only the wrapper of
`j` fires it, and only on a final event. -/
theorem callCb_firedCount (m : Mid) (c : Cb) (ev : Event) (j : Nat) :
    firedCount j (callCb m c ev).1 =
      if c.isWrapperOf j && ev.is_last then 1 else 0 := by
  cases c with
  | plain i prog =>
      have hw : (runCb m (prog ev)).1.filter (isFiredOf j) = [] := by
        refine List.filter_eq_nil_iff.mpr ?_
        intro a ha
        rw [runCb_effects_warned m (prog ev) a ha]
        simp [isFiredOf]
      simp [callCb, firedCount, Cb.isWrapperOf, List.filter, isFiredOf, hw]
  | interestEnd i =>
      by_cases hl : ev.is_last
      · by_cases hij : i = j
        · have hb : (i == j) = true := by simp [hij]
          simp [callCb, hl, firedCount, Cb.isWrapperOf, isFiredOf, List.filter, hb]
        · have hb : (i == j) = false := by simp [hij]
          simp [callCb, hl, firedCount, Cb.isWrapperOf, isFiredOf, List.filter, hb]
      · simp [callCb, hl, firedCount, Cb.isWrapperOf, List.filter]

/-- A dispatch pass over callbacks that do not raise: never aborts; the
wrapper of `j` fires exactly once per registration when the event is final
and never otherwise; and it survives exactly when the event is not final. -/
theorem dispatchPass_total (j : Nat) (ev : Event) :
    ∀ cbs : List Entry, EntriesTotal cbs →
      ∃ fx surv, dispatchPass ev cbs = (fx, .ok surv) ∧
        firedCount j fx = (if ev.is_last then wrapperCount j cbs else 0) ∧
        wrapperCount j surv = (if ev.is_last then 0 else wrapperCount j cbs) := by
  intro cbs
  induction cbs with
  | nil =>
      intro h
      refine ⟨[], [], rfl, ?_, ?_⟩
      · cases ev.is_last <;> rfl
      · cases ev.is_last <;> rfl
  | cons hd tl ih =>
      intro h
      obtain ⟨c, i⟩ := hd
      have hhd : CbTotal c := h (c, i) (List.mem_cons_self _ _)
      have htl : EntriesTotal tl := fun e he => h e (List.mem_cons_of_mem _ he)
      obtain ⟨fx2, surv2, hd2, hf2, hw2⟩ := ih htl
      obtain ⟨b, hb⟩ := hhd .dispatching ev
      have hcf := callCb_firedCount .dispatching c ev j
      rcases hcall : callCb .dispatching c ev with ⟨fx1, r⟩
      rw [hcall] at hb hcf
      simp only at hb hcf
      subst hb
      refine ⟨fx1 ++ fx2, if b then (c, i) :: surv2 else surv2, ?_, ?_, ?_⟩
      · simp only [dispatchPass, hcall, hd2]
      · rw [firedCount_append, hcf, hf2, wrapperCount_cons]
        cases hl : ev.is_last <;> cases hw : c.isWrapperOf j <;> simp [hw]
      · cases c with
        | plain i2 prog =>
            have hwp : (Cb.plain i2 prog).isWrapperOf j = false := rfl
            cases b with
            | true =>
                simp only [if_true]
                rw [wrapperCount_cons, wrapperCount_cons, hw2, hwp]
                cases hl : ev.is_last <;> simp
            | false =>
                simp only [Bool.false_eq_true, if_false]
                rw [hw2, wrapperCount_cons, hwp]
                cases hl : ev.is_last <;> simp
        | interestEnd i2 =>
            cases hl : ev.is_last with
            | true =>
                have hbv : b = false := by
                  have hcv : (callCb .dispatching (Cb.interestEnd i2) ev).2 = .ok false := by
                    simp [callCb, hl]
                  rw [hcall] at hcv
                  simpa using hcv
                subst hbv
                simp only [Bool.false_eq_true, if_false]
                rw [hw2, hl]
                simp
            | false =>
                have hbv : b = true := by
                  have hcv : (callCb .dispatching (Cb.interestEnd i2) ev).2 = .ok true := by
                    simp [callCb, hl]
                  rw [hcall] at hcv
                  simpa using hcv
                subst hbv
                simp only [if_true]
                rw [wrapperCount_cons, wrapperCount_cons, hw2, hl]
                simp

/-- The `_end` pass over callbacks that do not raise: completes without
error and fires the wrapper of `j` exactly once per registration. -/
theorem endPass_total (j : Nat) :
    ∀ cbs : List Entry, EntriesTotal cbs →
      firedCount j (endPass cbs).1 = wrapperCount j cbs ∧ (endPass cbs).2 = none := by
  intro cbs
  induction cbs with
  | nil => intro h; exact ⟨rfl, rfl⟩
  | cons hd tl ih =>
      intro h
      obtain ⟨c, i⟩ := hd
      have hhd : CbTotal c := h (c, i) (List.mem_cons_self _ _)
      have htl : EntriesTotal tl := fun e he => h e (List.mem_cons_of_mem _ he)
      obtain ⟨hf2, he2⟩ := ih htl
      obtain ⟨b, hb⟩ := hhd .ended tombstone
      have hcf := callCb_firedCount .ended c tombstone j
      rcases hcall : callCb .ended c tombstone with ⟨fx1, r⟩
      rw [hcall] at hb hcf
      simp only at hb hcf
      subst hb
      have hlast : tombstone.is_last = true := rfl
      rw [hlast] at hcf
      simp only [Bool.and_true] at hcf
      constructor
      · simp only [endPass, hcall]
        rw [firedCount_append, hcf, hf2, wrapperCount_cons]
      · simp only [endPass, hcall]
        exact he2

/-- Invariant tying the state of the point to the number `n` of firings of
the `on_interest_end` callback `j` so far (after its registration): either
it has fired exactly once and its wrapper is gone, or it has not fired and
exactly one wrapper for it is registered; once the point has ended it has
fired exactly once.  All registered callbacks are total. -/
def InvC4 (j : Nat) : EventCallbacks → Nat → Prop
  | .list cbs, n => EntriesTotal cbs ∧
      ((n = 1 ∧ wrapperCount j cbs = 0) ∨ (n = 0 ∧ wrapperCount j cbs = 1))
  | .false_, n => n = 1
  | .none_, _ => False

/-- One well-formed operation that is not `on_interest_end j` preserves the
invariant, accounting for the firings it produces. -/
theorem stepC4 (j : Nat) (s : EventCallbacks) (op : Op) (n : Nat)
    (hop : OpWellFormed op) (hnoj : isIEnd j op = false)
    (hinv : InvC4 j s n) :
    InvC4 j (step s op).state (n + firedCount j (step s op).effects) := by
  cases s with
  | none_ => exact absurd hinv (by simp [InvC4])
  | false_ =>
      have hn : n = 1 := hinv
      cases op with
      | onEvent c i => exact hn
      | unregister cid => exact hn
      | addResponse m l => exact hn
      | addException x => exact hn
      | onInterestEnd k =>
          have hkj : (k == j) = false := hnoj
          have hf : firedCount j [Effect.warned, Effect.fired k] = 0 := by
            simp [firedCount, List.filter, isFiredOf, hkj]
          show n + firedCount j [Effect.warned, Effect.fired k] = 1
          rw [hf]
          omega
  | list cbs =>
      obtain ⟨htot, hbr⟩ := hinv
      have keyPush : ∀ ev : Event,
          InvC4 j (add_event (.list cbs) ev).state
            (n + firedCount j (add_event (.list cbs) ev).effects) := by
        intro ev
        obtain ⟨fx, surv, hd, hf, hw⟩ := dispatchPass_total j ev cbs htot
        have hsurv : EntriesTotal surv :=
          EntriesTotal_sublist surv cbs (dispatchPass_surv_sublist ev cbs fx surv hd) htot
        cases hi : any_interest surv with
        | true =>
            have hstep : add_event (.list cbs) ev = ⟨.list surv, fx, none⟩ := by
              simp only [add_event, hd, hi, if_true]
            rw [hstep]
            show EntriesTotal surv ∧
              ((n + firedCount j fx = 1 ∧ wrapperCount j surv = 0) ∨
               (n + firedCount j fx = 0 ∧ wrapperCount j surv = 1))
            refine ⟨hsurv, ?_⟩
            cases hl : ev.is_last with
            | true =>
                rw [hl] at hf hw
                simp only [if_true] at hf hw
                rw [hf, hw]
                left
                rcases hbr with ⟨hn, hwc⟩ | ⟨hn, hwc⟩ <;> rw [hwc] at * <;> omega
            | false =>
                rw [hl] at hf hw
                simp only [Bool.false_eq_true, if_false] at hf hw
                rw [hf, hw]
                rcases hbr with ⟨hn, hwc⟩ | ⟨hn, hwc⟩
                · left; exact ⟨by omega, hwc⟩
                · right; exact ⟨by omega, hwc⟩
        | false =>
            have hend := endPass_total j surv hsurv
            have hstep : add_event (.list cbs) ev
                = ⟨.false_, fx ++ (endPass surv).1, (endPass surv).2⟩ := by
              simp only [add_event, hd, hi, Bool.false_eq_true, if_false, end_request]
            rw [hstep]
            show n + firedCount j (fx ++ (endPass surv).1) = 1
            rw [firedCount_append, hend.1]
            cases hl : ev.is_last with
            | true =>
                rw [hl] at hf hw
                simp only [if_true] at hf hw
                rcases hbr with ⟨hn, hwc⟩ | ⟨hn, hwc⟩ <;> omega
            | false =>
                rw [hl] at hf hw
                simp only [Bool.false_eq_true, if_false] at hf hw
                rcases hbr with ⟨hn, hwc⟩ | ⟨hn, hwc⟩ <;> omega
      cases op with
      | onEvent c i =>
          obtain ⟨hct, i2, prog, hc⟩ := hop
          subst hc
          have hstep : step (.list cbs) (.onEvent (.plain i2 prog) i)
              = ⟨.list (cbs ++ [(.plain i2 prog, i)]), [], none⟩ := rfl
          rw [hstep]
          show EntriesTotal (cbs ++ [(.plain i2 prog, i)]) ∧
            ((n + firedCount j [] = 1 ∧ wrapperCount j (cbs ++ [(.plain i2 prog, i)]) = 0) ∨
             (n + firedCount j [] = 0 ∧ wrapperCount j (cbs ++ [(.plain i2 prog, i)]) = 1))
          have hwapp : wrapperCount j (cbs ++ [(.plain i2 prog, i)]) = wrapperCount j cbs := by
            rw [wrapperCount_append, wrapperCount_cons]
            simp [Cb.isWrapperOf, wrapperCount]
          refine ⟨EntriesTotal_append_one cbs _ i htot hct, ?_⟩
          rw [hwapp]
          have hz : firedCount j ([] : List Effect) = 0 := rfl
          rw [hz]
          rcases hbr with ⟨hn, hwc⟩ | ⟨hn, hwc⟩
          · left; exact ⟨by omega, hwc⟩
          · right; exact ⟨by omega, hwc⟩
      | unregister cid =>
          have hwrem := wrapperCount_unregister_filter j cid cbs
          have hrem : EntriesTotal (cbs.filter (fun e => !(e.1.hasId cid))) :=
            EntriesTotal_sublist _ cbs (List.filter_sublist cbs) htot
          cases hi : any_interest (cbs.filter (fun e => !(e.1.hasId cid))) with
          | true =>
              have hstep : step (.list cbs) (.unregister cid)
                  = ⟨.list (cbs.filter (fun e => !(e.1.hasId cid))), [], none⟩ := by
                simp only [step, unregister_on_event, hi, if_true]
              rw [hstep]
              show EntriesTotal (cbs.filter (fun e => !(e.1.hasId cid))) ∧
                ((n + firedCount j [] = 1 ∧
                    wrapperCount j (cbs.filter (fun e => !(e.1.hasId cid))) = 0) ∨
                 (n + firedCount j [] = 0 ∧
                    wrapperCount j (cbs.filter (fun e => !(e.1.hasId cid))) = 1))
              refine ⟨hrem, ?_⟩
              have hz : firedCount j ([] : List Effect) = 0 := rfl
              rw [hz, hwrem]
              rcases hbr with ⟨hn, hwc⟩ | ⟨hn, hwc⟩
              · left; exact ⟨by omega, hwc⟩
              · right; exact ⟨by omega, hwc⟩
          | false =>
              have hend := endPass_total j _ hrem
              have hstep : step (.list cbs) (.unregister cid)
                  = ⟨.false_, (endPass (cbs.filter (fun e => !(e.1.hasId cid)))).1,
                     (endPass (cbs.filter (fun e => !(e.1.hasId cid)))).2⟩ := by
                simp only [step, unregister_on_event, hi, Bool.false_eq_true, if_false,
                  end_request]
              rw [hstep]
              show n + firedCount j (endPass (cbs.filter (fun e => !(e.1.hasId cid)))).1 = 1
              rw [hend.1, hwrem]
              rcases hbr with ⟨hn, hwc⟩ | ⟨hn, hwc⟩ <;> omega
      | onInterestEnd k =>
          have hkj : (k == j) = false := hnoj
          cases hi : any_interest cbs with
          | true =>
              have hstep : step (.list cbs) (.onInterestEnd k)
                  = ⟨.list (cbs ++ [(.interestEnd k, false)]), [], none⟩ := by
                simp only [step, on_interest_end, hi, if_true]
              rw [hstep]
              show EntriesTotal (cbs ++ [(.interestEnd k, false)]) ∧
                ((n + firedCount j [] = 1 ∧
                    wrapperCount j (cbs ++ [(.interestEnd k, false)]) = 0) ∨
                 (n + firedCount j [] = 0 ∧
                    wrapperCount j (cbs ++ [(.interestEnd k, false)]) = 1))
              have hwapp : wrapperCount j (cbs ++ [(.interestEnd k, false)])
                  = wrapperCount j cbs := by
                rw [wrapperCount_append, wrapperCount_cons]
                simp [Cb.isWrapperOf, hkj, wrapperCount]
              refine ⟨EntriesTotal_append_one cbs _ false htot (CbTotal_interestEnd k), ?_⟩
              have hz : firedCount j ([] : List Effect) = 0 := rfl
              rw [hz, hwapp]
              rcases hbr with ⟨hn, hwc⟩ | ⟨hn, hwc⟩
              · left; exact ⟨by omega, hwc⟩
              · right; exact ⟨by omega, hwc⟩
          | false =>
              have hstep : step (.list cbs) (.onInterestEnd k)
                  = ⟨.list cbs, [.fired k], none⟩ := by
                simp only [step, on_interest_end, hi, Bool.false_eq_true, if_false]
              rw [hstep]
              show EntriesTotal cbs ∧
                ((n + firedCount j [Effect.fired k] = 1 ∧ wrapperCount j cbs = 0) ∨
                 (n + firedCount j [Effect.fired k] = 0 ∧ wrapperCount j cbs = 1))
              have hz : firedCount j [Effect.fired k] = 0 := by
                simp [firedCount, List.filter, isFiredOf, hkj]
              rw [hz]
              refine ⟨htot, ?_⟩
              rcases hbr with ⟨hn, hwc⟩ | ⟨hn, hwc⟩
              · left; exact ⟨by omega, hwc⟩
              · right; exact ⟨by omega, hwc⟩
      | addResponse m l =>
          have hk := keyPush ⟨some m, none, l⟩
          simpa only [step, add_response] using hk
      | addException x =>
          have hk := keyPush ⟨none, some x, true⟩
          simpa only [step, add_exception] using hk

/-- Running well-formed operations (none of them `on_interest_end j`)
preserves the invariant, accounting for the firings produced. -/
theorem runC4 (j : Nat) :
    ∀ (ops : List Op) (s : EventCallbacks) (n : Nat),
      (∀ op ∈ ops, OpWellFormed op ∧ isIEnd j op = false) →
      InvC4 j s n →
      InvC4 j (run s ops).1 (n + firedCount j (run s ops).2) := by
  intro ops
  induction ops with
  | nil =>
      intro s n hops hinv
      show InvC4 j s (n + firedCount j [])
      have hz : firedCount j ([] : List Effect) = 0 := rfl
      rw [hz]
      simpa using hinv
  | cons op rest ih =>
      intro s n hops hinv
      have hop := hops op (List.mem_cons_self _ _)
      have h1 := stepC4 j s op n hop.1 hop.2 hinv
      have h2 := ih (step s op).state (n + firedCount j (step s op).effects)
        (fun o ho => hops o (List.mem_cons_of_mem _ ho)) h1
      show InvC4 j (run (step s op).state rest).1
        (n + firedCount j ((step s op).effects ++ (run (step s op).state rest).2))
      rw [firedCount_append, ← Nat.add_assoc]
      exact h2

/-- What the invariant yields: the callback has fired at most once, and
exactly once if the point has ended. -/
theorem InvC4_bound (j : Nat) (s : EventCallbacks) (n : Nat) (h : InvC4 j s n) :
    n ≤ 1 ∧ (isEnded s = true → n = 1) := by
  cases s with
  | list cbs =>
      obtain ⟨-, hbr⟩ := h
      constructor
      · rcases hbr with ⟨hn, -⟩ | ⟨hn, -⟩ <;> omega
      · intro hf
        exact absurd hf (by simp [isEnded])
  | false_ => exact ⟨Nat.le_of_eq h, fun _ => h⟩
  | none_ => exact absurd h (by simp [InvC4])

/-- Decomposing a run over concatenated operation lists. -/
theorem run_append (s : EventCallbacks) (l1 l2 : List Op) :
    run s (l1 ++ l2)
      = ((run (run s l1).1 l2).1, (run s l1).2 ++ (run (run s l1).1 l2).2) := by
  induction l1 generalizing s with
  | nil => rfl
  | cons op rest ih =>
      show ((run (step s op).state (rest ++ l2)).1,
            (step s op).effects ++ (run (step s op).state (rest ++ l2)).2) = _
      rw [ih (step s op).state]
      simp [run, List.append_assoc]

/-- The `on_interest_end j` call itself establishes the invariant, starting
from a state in which its wrapper is not yet registered: either it fires
immediately (no interest-counting observer, or already ended) or its wrapper
joins the observer list. -/
theorem midC4 (j : Nat) (s : EventCallbacks) (h : InvC4 j s 1) :
    InvC4 j (step s (.onInterestEnd j)).state
      (firedCount j (step s (.onInterestEnd j)).effects) := by
  have hjj : (j == j) = true := by simp
  cases s with
  | none_ => exact absurd h (by simp [InvC4])
  | false_ =>
      have hstep : step .false_ (.onInterestEnd j)
          = ⟨.false_, [.warned, .fired j], none⟩ := rfl
      rw [hstep]
      show firedCount j [Effect.warned, Effect.fired j] = 1
      simp [firedCount, List.filter, isFiredOf, hjj]
  | list cbs =>
      obtain ⟨htot, hbr⟩ := h
      have hwc : wrapperCount j cbs = 0 := by
        rcases hbr with ⟨-, hwc⟩ | ⟨hn, -⟩
        · exact hwc
        · omega
      cases hi : any_interest cbs with
      | true =>
          have hstep : step (.list cbs) (.onInterestEnd j)
              = ⟨.list (cbs ++ [(.interestEnd j, false)]), [], none⟩ := by
            simp only [step, on_interest_end, hi, if_true]
          rw [hstep]
          show EntriesTotal (cbs ++ [(.interestEnd j, false)]) ∧
            ((firedCount j [] = 1 ∧ wrapperCount j (cbs ++ [(.interestEnd j, false)]) = 0) ∨
             (firedCount j [] = 0 ∧ wrapperCount j (cbs ++ [(.interestEnd j, false)]) = 1))
          have hwapp : wrapperCount j (cbs ++ [(.interestEnd j, false)]) = 1 := by
            rw [wrapperCount_append, wrapperCount_cons, hwc]
            simp [Cb.isWrapperOf, hjj, wrapperCount]
          refine ⟨EntriesTotal_append_one cbs _ false htot (CbTotal_interestEnd j), ?_⟩
          right
          exact ⟨rfl, hwapp⟩
      | false =>
          have hstep : step (.list cbs) (.onInterestEnd j)
              = ⟨.list cbs, [.fired j], none⟩ := by
            simp only [step, on_interest_end, hi, Bool.false_eq_true, if_false]
          rw [hstep]
          show EntriesTotal cbs ∧
            ((firedCount j [Effect.fired j] = 1 ∧ wrapperCount j cbs = 0) ∨
             (firedCount j [Effect.fired j] = 0 ∧ wrapperCount j cbs = 1))
          refine ⟨htot, Or.inl ⟨?_, hwc⟩⟩
          simp [firedCount, List.filter, isFiredOf, hjj]

/-- C4: a callback passed to `on_interest_end` fires exactly once — at most
once in any run, and exactly once whenever the point has ended — no matter
when it is registered relative to interest loss, provided the surrounding
operations are well-formed user operations (plain, non-raising callbacks)
and this is the only `on_interest_end` registration with identity `j`.
Moreover the firing is immediate and synchronous when no interest-counting
observer currently exists: on an Open list without interest the call returns
having fired, and after Ended it warns and fires. -/
theorem C4_interest_end_fires_exactly_once
    (pre post : List Op) (j : Nat)
    (hpre : ∀ op ∈ pre, OpWellFormed op ∧ isIEnd j op = false)
    (hpost : ∀ op ∈ post, OpWellFormed op ∧ isIEnd j op = false) :
    firedCount j (run initPR (pre ++ Op.onInterestEnd j :: post)).2 ≤ 1 ∧
    (isEnded (run initPR (pre ++ Op.onInterestEnd j :: post)).1 = true →
      firedCount j (run initPR (pre ++ Op.onInterestEnd j :: post)).2 = 1) ∧
    (∀ cbs : List Entry, any_interest cbs = false →
      on_interest_end (.list cbs) j = ⟨.list cbs, [.fired j], none⟩) ∧
    on_interest_end .false_ j = ⟨.false_, [.warned, .fired j], none⟩ := by
  have hinit : InvC4 j initPR 1 := by
    refine ⟨?_, Or.inl ⟨rfl, rfl⟩⟩
    intro e he
    simp at he
  have h1 := runC4 j pre initPR 1 hpre hinit
  have hb1 := InvC4_bound j _ _ h1
  have hf1 : firedCount j (run initPR pre).2 = 0 := by
    have := hb1.1
    omega
  have h1x : InvC4 j (run initPR pre).1 1 := by
    rw [hf1] at h1
    simpa using h1
  have h2 := midC4 j (run initPR pre).1 h1x
  have h3 := runC4 j post (step (run initPR pre).1 (.onInterestEnd j)).state
      (firedCount j (step (run initPR pre).1 (.onInterestEnd j)).effects) hpost h2
  have hb3 := InvC4_bound j _ _ h3
  have hsplit : run initPR (pre ++ Op.onInterestEnd j :: post)
      = ((run (step (run initPR pre).1 (.onInterestEnd j)).state post).1,
         (run initPR pre).2 ++ ((step (run initPR pre).1 (.onInterestEnd j)).effects
            ++ (run (step (run initPR pre).1 (.onInterestEnd j)).state post).2)) := by
    rw [run_append]
    rfl
  refine ⟨?_, ?_, ?_, rfl⟩
  · rw [hsplit]
    show firedCount j ((run initPR pre).2
      ++ ((step (run initPR pre).1 (.onInterestEnd j)).effects
          ++ (run (step (run initPR pre).1 (.onInterestEnd j)).state post).2)) ≤ 1
    rw [firedCount_append, firedCount_append, hf1]
    have := hb3.1
    omega
  · rw [hsplit]
    intro hend
    have hsum := hb3.2 hend
    show firedCount j ((run initPR pre).2
      ++ ((step (run initPR pre).1 (.onInterestEnd j)).effects
          ++ (run (step (run initPR pre).1 (.onInterestEnd j)).state post).2)) = 1
    rw [firedCount_append, firedCount_append, hf1]
    omega
  · intro cbs h
    simp only [on_interest_end, h, Bool.false_eq_true, if_false]

/-- Witness for `C4_interest_end_fires_exactly_once`: one always-true
interest observer registered before `on_interest_end`, then unregistered —
interest ends and the callback fires exactly once. -/
theorem C4_witness :
    firedCount 9 (run initPR ([.onEvent alwaysTrueCb true]
      ++ Op.onInterestEnd 9 :: [.unregister 0])).2 ≤ 1 ∧
    (isEnded (run initPR ([.onEvent alwaysTrueCb true]
      ++ Op.onInterestEnd 9 :: [.unregister 0])).1 = true →
      firedCount 9 (run initPR ([.onEvent alwaysTrueCb true]
        ++ Op.onInterestEnd 9 :: [.unregister 0])).2 = 1) ∧
    (∀ cbs : List Entry, any_interest cbs = false →
      on_interest_end (.list cbs) 9 = ⟨.list cbs, [.fired 9], none⟩) ∧
    on_interest_end .false_ 9 = ⟨.false_, [.warned, .fired 9], none⟩ := by
  refine C4_interest_end_fires_exactly_once [.onEvent alwaysTrueCb true] [.unregister 0] 9
    ?_ ?_
  · intro op hop
    simp only [List.mem_singleton] at hop
    subst hop
    refine ⟨⟨?_, 0, fun _ => .ret true, rfl⟩, rfl⟩
    intro m ev
    cases m <;> exact ⟨true, rfl⟩
  · intro op hop
    simp only [List.mem_singleton] at hop
    subst hop
    exact ⟨trivial, rfl⟩
